import Mathlib

/-!
Verification of the silverScraper crawl pipeline.

The development shallowly embeds the script of the scraper page: the record
extraction helpers (`getFieldValue`, `getAddress`), the retry-wrapped page
fetch (`fetchPage`), the wave-based crawl driver (`fetchData`), the
localStorage batch store, the search over stored batches (`searchData`) and
the spreadsheet export (`exportToXLSX`).

Concurrency model: the script runs on a single JavaScript event loop; the
launched fetches of a wave complete at await points of the driver (the pacing
delays inside the launch loop and the `Promise.all` join).  The embedding
makes that nondeterminism explicit through a schedule parameter `σ`: at the
await point with global index `t`, the in-flight fetches listed in `σ t` (and
still pending) complete, in the listed order; every fetch still pending at the
join completes there, in launch order unless the schedule interleaves it
earlier.  JSON serialization of record arrays into localStorage is modelled as
the identity on the structured value.
-/

/-- Whitespace class of the JavaScript regular expression `\s` and of
`String.prototype.trim`, restricted to the characters that can realistically
occur here. -/
def isJSWS (c : Char) : Bool :=
  c = ' ' || c = '\t' || c = '\n' || c = '\r' || c = '\x0b' || c = '\x0c' || c = ' '

/-- Model of `String.prototype.trim` on a character list: drop leading and
trailing whitespace. -/
def trimChars (l : List Char) : List Char :=
  ((l.dropWhile isJSWS).reverse.dropWhile isJSWS).reverse

/-- Model of `String.prototype.trim`. -/
def trimJS (s : String) : String :=
  (trimChars s.data).asString

/-- Worker for the replacement `.replace(/\s+/g, " ")`: `prevWS` records
whether the previously emitted character was the space of a collapsed run. -/
def collapseWSAux : Bool → List Char → List Char
  | _, [] => []
  | prevWS, c :: rest =>
    if isJSWS c then
      if prevWS then collapseWSAux true rest
      else ' ' :: collapseWSAux true rest
    else c :: collapseWSAux false rest

/-- Model of `.replace(/\s+/g, " ")`: every maximal run of whitespace becomes
a single space. -/
def collapseWS (l : List Char) : List Char :=
  collapseWSAux false l

/-- Recognise the regular expression `<br\s*\/?>` at the head of the list and
return the remaining characters after the match. -/
def matchBr : List Char → Option (List Char)
  | '<' :: 'b' :: 'r' :: rest =>
    match rest.dropWhile isJSWS with
    | '/' :: '>' :: r => some r
    | '>' :: r => some r
    | _ => none
  | _ => none

/-- Worker for `.replace(/<br\s*\/?>/g, ", ")`; the fuel starts at the length
of the input and never runs out, because each step consumes at least one
character. -/
def replaceBrGo : Nat → List Char → List Char
  | 0, l => l
  | _ + 1, [] => []
  | fuel + 1, c :: rest =>
    match matchBr (c :: rest) with
    | some r => ',' :: ' ' :: replaceBrGo fuel r
    | none => c :: replaceBrGo fuel rest

/-- Model of `.replace(/<br\s*\/?>/g, ", ")`: every line-break tag becomes a
comma and a space. -/
def replaceBr (l : List Char) : List Char :=
  replaceBrGo l.length l

/-- Decide whether the second list begins with the first one. -/
def listStartsWith [DecidableEq α] : List α → List α → Bool
  | [], _ => true
  | _ :: _, [] => false
  | a :: pat, b :: l => a = b && listStartsWith pat l

/-- Decide whether `pat` occurs as a contiguous segment of `l`; model of
`String.prototype.includes` on the character lists. -/
def listContainsSeg [DecidableEq α] (pat : List α) : List α → Bool
  | [] => pat.isEmpty
  | c :: rest => listStartsWith pat (c :: rest) || listContainsSeg pat rest

/-- Model of `s.includes(pat)`. -/
def strContains (s pat : String) : Bool :=
  listContainsSeg pat.data s.data

/-- A crawl record: the script represents each extracted entry as the array
`[name, rizivNr, conventionState, qualification, qualificationDate, address]`. -/
abbrev Row := List String

/-- A labelled field inside an entry card: the trimmed-comparable text of the
`label` element and, when the sibling `.col-sm-8 small` value element exists,
its text content. -/
structure LabelNode where
  labelText : String
  valueText : Option String
  deriving DecidableEq, Repr

/-- An entry card (`.card` element) of a result document: its labelled fields
in document order and the innerHTML of each `.col-sm-8 p small` element of its
detail block. -/
structure Card where
  labels : List LabelNode
  detailSmalls : List String
  deriving DecidableEq, Repr

/-- A successfully retrieved and parsed result document: its entry cards and
the number of `.pagination .page-item` elements. -/
structure Doc where
  cards : List Card
  paginationItems : Nat
  deriving DecidableEq, Repr

/-- Embedding of `getFieldValue`: find the first label whose trimmed text is
`labelText` and return the trimmed text of its adjacent value element, `none`
when the label is absent or has no value element. -/
def getFieldValue (entry : Card) (labelText : String) : Option String :=
  match entry.labels.find? (fun l => trimJS l.labelText = labelText) with
  | some l => l.valueText.map trimJS
  | none => none

/-- Embedding of the address cleanup inside `getAddress`: trim the innerHTML,
replace line-break tags by a comma and a space, collapse whitespace runs to
single spaces, and trim the result. -/
def cleanAddress (s : String) : String :=
  (trimChars (collapseWS (replaceBr (trimChars s.data)))).asString

/-- Embedding of `getAddress`: when the card's detail block has more than one
`.col-sm-8 p small` element, clean up the second one, otherwise `null`. -/
def getAddress (entry : Card) : Option String :=
  match entry.detailSmalls[1]? with
  | some h => some (cleanAddress h)
  | none => none

/-- JavaScript `x || "undefined"`: both `null` and the empty string are falsy,
so either one yields the placeholder. -/
def jsOrUndefined : Option String → String
  | some s => if s = "" then "undefined" else s
  | none => "undefined"

/-- Embedding of the per-card extraction in `fetchPage` (lines building
`pageData`): the ordered six-field record of a card. -/
def makeRecord (entry : Card) : Row :=
  [ jsOrUndefined (getFieldValue entry "Naam"),
    jsOrUndefined (getFieldValue entry "RIZIV-nr"),
    jsOrUndefined (getFieldValue entry "Conv."),
    jsOrUndefined (getFieldValue entry "Kwalificatie"),
    jsOrUndefined (getFieldValue entry "Kwal. datum"),
    jsOrUndefined (getAddress entry) ]

/-- Records extracted from a document: one per `.card` element, in document
order. -/
def extractRecords (doc : Doc) : List Row :=
  doc.cards.map makeRecord

/-- Embedding of the end-of-data heuristic `paginationItems.length <= 2`
assigned to `isLastPage` by a successful fetch. -/
def extractIsLast (doc : Doc) : Bool :=
  doc.paginationItems ≤ 2

/-- Outcomes of the successive fetch attempts for one page: `attempts i` is
`some doc` when the `i`-th attempt (0-based) retrieves and parses a document,
and `none` when it throws (network error, non-success status, parse error). -/
abbrev AttemptOracle := Nat → Option Doc

/-- Embedding of the recursive retry in `fetchPage`: `attemptIdx` is the index
of the attempt about to run and `retryCount` the remaining retries.  Returns
the retrieved document (`none` after exhaustion), the number of attempts made,
and the list of retry delays in milliseconds. -/
def fetchPageGo (attempts : AttemptOracle) : Nat → Nat → Option Doc × Nat × List Nat
  | retryCount, attemptIdx =>
    match attempts attemptIdx with
    | some doc => (some doc, 1, [])
    | none =>
      match retryCount with
      | 0 => (none, 1, [])
      | r + 1 =>
        let rest := fetchPageGo attempts r (attemptIdx + 1)
        (rest.1, rest.2.1 + 1, 1500 :: rest.2.2)

/-- Embedding of `fetchPage(pageNumber)`: the initial call passes
`retryCount = retries = 4`. -/
def fetchPageRun (attempts : AttemptOracle) : Option Doc × Nat × List Nat :=
  fetchPageGo attempts 4 0

/-- Per-page attempt outcomes for a whole crawl: `env p` is the attempt oracle
of the fetches of page `p`. -/
abbrev CrawlEnv := Nat → AttemptOracle

/-- Net document obtained for page `p` by the retry-wrapped fetch, `none` when
all five attempts fail. -/
def netDoc (env : CrawlEnv) (p : Nat) : Option Doc :=
  (fetchPageRun (env p)).1

/-- Records the promise of page `p` resolves with: the extracted records on
success, the empty list after retry exhaustion. -/
def pageRows (env : CrawlEnv) (p : Nat) : List Row :=
  ((netDoc env p).map extractRecords).getD []

/-- The localStorage contents, in key-enumeration (insertion) order; values
are the parsed batch arrays. -/
abbrev Store := List (String × List Row)

/-- Model of `localStorage.setItem`: overwrite in place when the key exists,
append otherwise. -/
def setItem (store : Store) (k : String) (v : List Row) : Store :=
  if store.any (fun kv => kv.1 = k) then
    store.map (fun kv => if kv.1 = k then (k, v) else kv)
  else store ++ [(k, v)]

/-- Model of `localStorage.getItem` followed by `JSON.parse`. -/
def getItem (store : Store) (k : String) : Option (List Row) :=
  (store.find? (fun kv => kv.1 = k)).map (fun kv => kv.2)

/-- The key `` `${localStorageKeyPrefix}-${batchIndex}` `` under which
`fetchData` saves a wave's batch. -/
def batchKey (idx : Nat) : String :=
  "doctorDataBatch-" ++ Nat.repr idx

/-- Model of `key.startsWith("doctorDataBatch")`, the filter used by
`buildTableFromLocalStorage` and `searchData`. -/
def isBatchKey (k : String) : Bool :=
  listStartsWith "doctorDataBatch".data k.data

/-- All stored records in key-enumeration order: the flattening performed by
`buildTableFromLocalStorage` (and implicitly by `searchData`). -/
def readAllRows (store : Store) : List Row :=
  (store.filter (fun kv => isBatchKey kv.1)).flatMap (fun kv => kv.2)

/-- The match test of `searchData`:
`row.join(" ").toLowerCase().includes(searchTerm)`, where `searchTerm` is the
already lower-cased input. -/
def rowMatches (searchTerm : String) (row : Row) : Bool :=
  strContains (String.toLower (String.intercalate " " row)) searchTerm

/-- Embedding of `searchData`: lower-case the input, walk the batch keys in
enumeration order, and collect the rows whose joined lower-cased fields
contain the search term. -/
def searchData (store : Store) (input : String) : List Row :=
  let searchTerm := String.toLower input
  (store.filter (fun kv => isBatchKey kv.1)).foldl
    (fun acc kv => acc ++ kv.2.filter (rowMatches searchTerm)) []

/-- The spreadsheet artifact produced by the export: one sheet per
`book_append_sheet` call, and the output filename passed to `writeFile`. -/
structure XLSXFile where
  filename : String
  sheets : List (String × List Row)
  deriving DecidableEq, Repr

/-- Embedding of `exportToXLSX`: serialize the given row collection (the
script always passes `fetchedData`) into a single sheet named
`Doctors Data` of a workbook written to `doctors_data.xlsx`; `aoa_to_sheet`
emits exactly the rows it is given, with no header row. -/
def exportToXLSX (rows : List Row) : XLSXFile :=
  { filename := "doctors_data.xlsx", sheets := [("Doctors Data", rows)] }

/-- One completion event of a launched fetch: the page number, the flag value
`isLastPage` held before the completion handler ran, and the value it holds
immediately afterwards. -/
structure FlagEvent where
  page : Nat
  before : Bool
  after : Bool
  deriving DecidableEq, Repr

/-- One committed batch: the value of `batchIndex` at commit time, the pages
of the wave in launch order, and the concatenated rows saved to storage. -/
structure CommitEntry where
  idx : Nat
  pages : List Nat
  rows : List Row
  deriving DecidableEq, Repr

/-- The mutable state of one `fetchData` run, together with ghost logs of the
launches, completions, and commits (the logs instrument the embedding; the
script's own variables are `currentPage`, `isLastPage`, `batchIndex`, the
storage, and the page-level `fetchedData`). -/
structure CrawlState where
  currentPage : Nat
  isLastPage : Bool
  batchIndex : Nat
  store : Store
  tick : Nat
  launchLog : List Nat
  flagEvents : List FlagEvent
  commitLog : List CommitEntry
  fetchedData : List Row
  deriving Repr

/-- Completion handler of the fetch of page `p`: on success the fetch assigns
`isLastPage = paginationItems.length <= 2`; after retry exhaustion it resolves
with `[]` and leaves the flag untouched. -/
def deliverOne (env : CrawlEnv) (s : CrawlState) (p : Nat) : CrawlState :=
  match netDoc env p with
  | some doc =>
    { s with isLastPage := extractIsLast doc,
             flagEvents := s.flagEvents ++
               [{ page := p, before := s.isLastPage, after := extractIsLast doc }] }
  | none =>
    { s with flagEvents := s.flagEvents ++
               [{ page := p, before := s.isLastPage, after := s.isLastPage }] }

/-- Deliver the completions listed in `ps`, in order, skipping pages that are
not (or no longer) pending; returns the new state and remaining pending
pages. -/
def deliverListed (env : CrawlEnv) (sp : CrawlState × List Nat) (ps : List Nat) :
    CrawlState × List Nat :=
  ps.foldl
    (fun acc p =>
      if p ∈ acc.2 then (deliverOne env acc.1 p, acc.2.erase p) else acc)
    sp

/-- An await-point schedule: `σ t` lists the fetches completing at the await
point with global index `t`. -/
abbrev Schedule := Nat → List Nat

/-- One iteration body of the launch loop: push `fetchPage(currentPage++)`
(recording the launch), then suspend on the 2-second pacing delay, during
which the completions scheduled for the current await point run.  The first
component of the triple is the driver state, the second the pages of the wave
in launch order (`fetchPromises`), the third the still-pending pages. -/
def launchStep (env : CrawlEnv) (σ : Schedule)
    (acc : CrawlState × List Nat × List Nat) : CrawlState × List Nat × List Nat :=
  let p := acc.1.currentPage
  let s1 := { acc.1 with currentPage := p + 1, launchLog := acc.1.launchLog ++ [p] }
  let d := deliverListed env (s1, acc.2.2 ++ [p]) (σ s1.tick)
  ({ d.1 with tick := d.1.tick + 1 }, acc.2.1 ++ [p], d.2)

/-- Embedding of the launch loop
`for (let i = 0; i < parallelLimit && !isLastPage; i++)`: each iteration
re-reads `isLastPage` before launching, so a completion observed during a
pacing delay can cut the wave short. -/
def launchLoop (env : CrawlEnv) (σ : Schedule) :
    Nat → CrawlState × List Nat × List Nat → CrawlState × List Nat × List Nat
  | 0, acc => acc
  | i + 1, acc =>
    if acc.1.isLastPage then acc
    else launchLoop env σ i (launchStep env σ acc)

/-- Embedding of one iteration of the `while (!isLastPage)` loop of
`fetchData`: launch a wave, await `Promise.all` (the join is an await point at
which scheduled completions run first and every remaining pending fetch then
completes in launch order), concatenate the wave's results in launch order,
and save the batch under the next sequential key. -/
def waveStep (env : CrawlEnv) (σ : Schedule) (parallelLimit : Nat)
    (s : CrawlState) : CrawlState :=
  let r1 := launchLoop env σ parallelLimit (s, [], [])
  let r2 := deliverListed env (r1.1, r1.2.2) (σ r1.1.tick)
  let r3 := deliverListed env ({ r2.1 with tick := r2.1.tick + 1 }, r2.2) r2.2
  let batchData := r1.2.1.flatMap (pageRows env)
  { r3.1 with
    store := setItem r3.1.store (batchKey r3.1.batchIndex) batchData,
    commitLog := r3.1.commitLog ++
      [{ idx := r3.1.batchIndex, pages := r1.2.1, rows := batchData }],
    batchIndex := r3.1.batchIndex + 1 }

/-- Embedding of the `while (!isLastPage)` loop: `fuel` bounds the number of
waves (the script itself has no such bound and can loop forever); the boolean
records whether the loop exited by observing the flag within the given
fuel. -/
def crawlLoop (env : CrawlEnv) (σ : Schedule) (parallelLimit : Nat) :
    Nat → CrawlState → CrawlState × Bool
  | 0, s => (s, false)
  | fuel + 1, s =>
    if s.isLastPage then (s, true)
    else crawlLoop env σ parallelLimit fuel (waveStep env σ parallelLimit s)

/-- The local state `fetchData` sets up before its first wave: page counter 1,
flag down, batch index 0; the storage and the page-level `fetchedData`
collection carry over from before the call. -/
def initState (store0 : Store) (fd : List Row) : CrawlState :=
  { currentPage := 1, isLastPage := false, batchIndex := 0, store := store0,
    tick := 0, launchLog := [], flagEvents := [], commitLog := [],
    fetchedData := fd }

/-- Embedding of a full `fetchData(parallelLimit)` call under attempt
outcomes `env` and completion schedule `σ`. -/
def fetchDataRun (env : CrawlEnv) (σ : Schedule) (parallelLimit : Nat)
    (fuel : Nat) (store0 : Store) (fd : List Row) : CrawlState × Bool :=
  crawlLoop env σ parallelLimit fuel (initState store0 fd)

/-- The schedule in which no fetch completes during a launch loop: every
completion is observed at its wave's join, in launch order. -/
def joinOrderSchedule : Schedule := fun _ => []

/-- The consecutive page block `[start, start+1, ..., start+k-1]`. -/
def consecFrom (start k : Nat) : List Nat :=
  (List.range k).map (start + ·)

/-- The crawl environment in which every page's first attempt succeeds and the
pagination heuristic reports end-of-data exactly from page `lastPage` on:
pages before `lastPage` show 3 page items, later ones 2.  Cards are taken from
`content p`. -/
def uniformEnv (content : Nat → List Card) (lastPage : Nat) : CrawlEnv :=
  fun p _ => some { cards := content p, paginationItems := if lastPage ≤ p then 2 else 3 }

/-- The run has true last page `N`: every page fetch eventually succeeds, and
the retrieved document signals end-of-data exactly for pages from `N` on. -/
def hasTrueLastPage (env : CrawlEnv) (N : Nat) : Prop :=
  ∀ p, 1 ≤ p → ∃ doc, netDoc env p = some doc ∧ (extractIsLast doc = decide (N ≤ p))

/-- Adjacent characters are never both whitespace. -/
def wsChainP (a b : Char) : Prop := isJSWS a = false ∨ isJSWS b = false

/-- A collapsed string: no two adjacent whitespace characters remain. -/
def collapsedString (s : String) : Prop := s.data.Chain' wsChainP

/-- A trimmed string: neither end is a whitespace character. -/
def trimmedString (s : String) : Prop :=
  (∀ c, s.data.head? = some c → isJSWS c = false) ∧
  (∀ c, s.data.getLast? = some c → isJSWS c = false)

theorem collapseWSAux_head_true (l : List Char) :
    ∀ c, (collapseWSAux true l).head? = some c → isJSWS c = false := by
  induction l with
  | nil => intro c h; simp [collapseWSAux] at h
  | cons a rest ih =>
    intro c h
    cases hws : isJSWS a with
    | true =>
      rw [collapseWSAux, hws] at h
      simp only [if_true] at h
      exact ih c h
    | false =>
      rw [collapseWSAux, hws] at h
      simp only [Bool.false_eq_true, if_false, List.head?_cons, Option.some.injEq] at h
      subst h
      exact hws

theorem collapseWSAux_chain (l : List Char) : ∀ b, (collapseWSAux b l).Chain' wsChainP := by
  induction l with
  | nil => intro b; simp [collapseWSAux]
  | cons a rest ih =>
    intro b
    cases hws : isJSWS a with
    | true =>
      cases b with
      | false =>
        rw [collapseWSAux, hws]
        simp only [if_true, Bool.false_eq_true, if_false]
        rw [List.chain'_cons']
        refine ⟨fun y hy => Or.inr ?_, ih true⟩
        exact collapseWSAux_head_true rest y (Option.mem_def.mp hy)
      | true =>
        rw [collapseWSAux, hws]
        simp only [if_true]
        exact ih true
    | false =>
      rw [collapseWSAux, hws]
      simp only [Bool.false_eq_true, if_false]
      rw [List.chain'_cons']
      exact ⟨fun y _ => Or.inl hws, ih false⟩

theorem dropWhileWS_head (m : List Char) :
    ∀ c, (m.dropWhile isJSWS).head? = some c → isJSWS c = false := by
  induction m with
  | nil => intro c h; simp at h
  | cons a rest ih =>
    intro c h
    cases hws : isJSWS a with
    | true =>
      rw [List.dropWhile_cons_of_pos hws] at h
      exact ih c h
    | false =>
      rw [List.dropWhile_cons_of_neg (by simp [hws])] at h
      simp only [List.head?_cons, Option.some.injEq] at h
      subst h
      exact hws

theorem trimChars_isInfix (l : List Char) : trimChars l <:+: l := by
  unfold trimChars
  have h1 : l.dropWhile isJSWS <:+ l := List.dropWhile_suffix isJSWS
  have h2 : (l.dropWhile isJSWS).reverse.dropWhile isJSWS <:+ (l.dropWhile isJSWS).reverse :=
    List.dropWhile_suffix isJSWS
  have h3 : ((l.dropWhile isJSWS).reverse.dropWhile isJSWS).reverse <+: l.dropWhile isJSWS := by
    rw [← List.reverse_suffix]
    simpa using h2
  exact h3.isInfix.trans h1.isInfix

theorem trimChars_chain (l : List Char) (h : l.Chain' wsChainP) :
    (trimChars l).Chain' wsChainP :=
  h.infix (trimChars_isInfix l)

theorem trimChars_head (l : List Char) (c : Char)
    (h : (trimChars l).head? = some c) : isJSWS c = false := by
  unfold trimChars at h
  rw [List.head?_reverse] at h
  set X := l.dropWhile isJSWS with hX
  set W := X.reverse.dropWhile isJSWS with hW
  have hWne : W ≠ [] := by
    intro hnil
    rw [hnil] at h
    simp at h
  obtain ⟨t, ht⟩ : W <:+ X.reverse := List.dropWhile_suffix isJSWS
  have hlast : X.reverse.getLast? = some c := by
    rw [← ht, List.getLast?_append_of_ne_nil _ hWne]
    exact h
  rw [List.getLast?_reverse] at hlast
  exact dropWhileWS_head l c hlast

theorem trimChars_getLast (l : List Char) (c : Char)
    (h : (trimChars l).getLast? = some c) : isJSWS c = false := by
  unfold trimChars at h
  rw [List.getLast?_reverse] at h
  exact dropWhileWS_head (l.dropWhile isJSWS).reverse c h

theorem cleanAddress_collapsed (h : String) : collapsedString (cleanAddress h) :=
  trimChars_chain _ (collapseWSAux_chain _ false)

theorem cleanAddress_trimmed (h : String) : trimmedString (cleanAddress h) :=
  ⟨fun c hc => trimChars_head _ c hc, fun c hc => trimChars_getLast _ c hc⟩

/-- C7: for every entry card, extraction yields an ordered six-field record of
strings; a field whose label is absent from the card yields exactly the
placeholder string `undefined`; the address field is taken from the second
value element of the card's detail block, with line-break markup replaced by
a comma and space, whitespace runs collapsed to single spaces, and the result
trimmed (extraction is a total function, so it never raises). -/
theorem C7_record_fields (entry : Card) :
    (makeRecord entry).length = 6 ∧
    (∀ lbl, (∀ ln ∈ entry.labels, trimJS ln.labelText ≠ lbl) →
      jsOrUndefined (getFieldValue entry lbl) = "undefined") ∧
    (∀ h, entry.detailSmalls[1]? = some h →
      getAddress entry = some (cleanAddress h) ∧
      collapsedString (cleanAddress h) ∧ trimmedString (cleanAddress h)) := by
  refine ⟨rfl, ?_, ?_⟩
  · intro lbl habsent
    have hfind : entry.labels.find? (fun l => trimJS l.labelText = lbl) = none := by
      rw [List.find?_eq_none]
      intro x hx
      simpa using habsent x hx
    simp [getFieldValue, hfind, jsOrUndefined]
  · intro h hh
    refine ⟨by simp [getAddress, hh], cleanAddress_collapsed h, cleanAddress_trimmed h⟩

/-- Concrete card used to witness C7: the `Naam` label is present,
`RIZIV-nr` is absent, and the detail block has a second value element with
line breaks and irregular whitespace. -/
def cardW : Card :=
  { labels := [{ labelText := " Naam ", valueText := some " Jan Peeters " }],
    detailSmalls := ["tel", "  Gentstraat 1<br>9000  <br/> Gent  "] }

/-- Witness for C7 at a concrete card. -/
theorem C7_record_fields_witness :
    jsOrUndefined (getFieldValue cardW "RIZIV-nr") = "undefined" ∧
    getAddress cardW = some (cleanAddress "  Gentstraat 1<br>9000  <br/> Gent  ") ∧
    collapsedString (cleanAddress "  Gentstraat 1<br>9000  <br/> Gent  ") ∧
    trimmedString (cleanAddress "  Gentstraat 1<br>9000  <br/> Gent  ") :=
  ⟨(C7_record_fields cardW).2.1 "RIZIV-nr" (by decide),
   (C7_record_fields cardW).2.2 "  Gentstraat 1<br>9000  <br/> Gent  " (by decide)⟩

theorem fetchPageGo_attempts_le (attempts : AttemptOracle) :
    ∀ r a, (fetchPageGo attempts r a).2.1 ≤ r + 1 := by
  intro r
  induction r with
  | zero =>
    intro a
    cases h : attempts a <;> simp [fetchPageGo, h]
  | succ r ih =>
    intro a
    cases h : attempts a with
    | some doc => simp [fetchPageGo, h]
    | none =>
      have := ih (a + 1)
      simp only [fetchPageGo, h]
      omega

theorem fetchPageGo_success (attempts : AttemptOracle) :
    ∀ k r a doc, k ≤ r → (∀ i, i < k → attempts (a + i) = none) →
      attempts (a + k) = some doc →
      fetchPageGo attempts r a = (some doc, k + 1, List.replicate k 1500) := by
  intro k
  induction k with
  | zero =>
    intro r a doc _ _ hk
    rw [Nat.add_zero] at hk
    cases r <;> simp [fetchPageGo, hk]
  | succ k ih =>
    intro r a doc hkr hfail hsucc
    obtain ⟨r', rfl⟩ : ∃ r', r = r' + 1 := ⟨r - 1, by omega⟩
    have ha : attempts a = none := by
      have := hfail 0 (Nat.succ_pos k)
      simpa using this
    have hrest : fetchPageGo attempts r' (a + 1) =
        (some doc, k + 1, List.replicate k 1500) := by
      refine ih r' (a + 1) doc (by omega) (fun i hi => ?_) ?_
      · have := hfail (i + 1) (by omega)
        simpa [Nat.add_assoc, Nat.add_comm 1 i] using this
      · have : a + 1 + k = a + (k + 1) := by omega
        rw [this]
        exact hsucc
    simp [fetchPageGo, ha, hrest, List.replicate_succ]

theorem fetchPageGo_allFail (attempts : AttemptOracle) :
    ∀ r a, (∀ i, i ≤ r → attempts (a + i) = none) →
      fetchPageGo attempts r a = (none, r + 1, List.replicate r 1500) := by
  intro r
  induction r with
  | zero =>
    intro a hfail
    have := hfail 0 (Nat.le_refl 0)
    simp only [Nat.add_zero] at this
    simp [fetchPageGo, this]
  | succ r ih =>
    intro a hfail
    have ha : attempts a = none := by simpa using hfail 0 (Nat.zero_le _)
    have hrest := ih (a + 1) (fun i hi => by
      have := hfail (i + 1) (by omega)
      simpa [Nat.add_assoc, Nat.add_comm 1 i] using this)
    simp [fetchPageGo, ha, hrest, List.replicate_succ]

/-- C3: the retry-wrapped fetch of a page makes at most five attempts (one
initial, up to four retries) with a fixed 1.5-second delay between attempts;
if the attempt with index `k < 5` is the first to succeed, the operation
returns that attempt's document (hence its extracted records) after exactly
`k + 1` attempts and `k` delays; if all five attempts fail it returns no
document — the caller receives the empty record sequence and no exception
propagates (the embedding is a total function returning the exhaustion value
rather than a failure). -/
theorem C3_retry_policy (attempts : AttemptOracle) :
    ((fetchPageRun attempts).2.1 ≤ 5) ∧
    (∀ k doc, k ≤ 4 → (∀ i, i < k → attempts i = none) → attempts k = some doc →
      fetchPageRun attempts = (some doc, k + 1, List.replicate k 1500) ∧
      ((fetchPageRun attempts).1.map extractRecords).getD [] = extractRecords doc) ∧
    ((∀ i, i ≤ 4 → attempts i = none) →
      fetchPageRun attempts = (none, 5, List.replicate 4 1500) ∧
      ((fetchPageRun attempts).1.map extractRecords).getD [] = []) := by
  refine ⟨fetchPageGo_attempts_le attempts 4 0, ?_, ?_⟩
  · intro k doc hk hfail hsucc
    have h := fetchPageGo_success attempts k 4 0 doc hk
      (fun i hi => by simpa using hfail i hi) (by simpa using hsucc)
    exact ⟨h, by simp [fetchPageRun, h]⟩
  · intro hfail
    have h := fetchPageGo_allFail attempts 4 0 (fun i hi => by simpa using hfail i hi)
    exact ⟨h, by simp [fetchPageRun, h]⟩

/-- Attempt outcomes witnessing C3: the first three attempts fail, the fourth
succeeds. -/
def attemptsW : AttemptOracle :=
  fun i => if i < 3 then none else some { cards := [], paginationItems := 5 }

/-- Witness for C3: with three failures then a success, the operation makes
exactly four attempts and three delays and returns the successful attempt's
document. -/
theorem C3_retry_policy_witness :
    fetchPageRun attemptsW =
      (some { cards := [], paginationItems := 5 }, 4, List.replicate 3 1500) :=
  ((C3_retry_policy attemptsW).2.1 3 { cards := [], paginationItems := 5 }
    (by decide) (fun i hi => by simp [attemptsW, hi]) (by simp [attemptsW])).1

theorem searchData_foldl (m : String) (l : List (String × List Row)) (init : List Row) :
    l.foldl (fun acc kv => acc ++ kv.2.filter (rowMatches m)) init
      = init ++ l.flatMap (fun kv => kv.2.filter (rowMatches m)) := by
  induction l generalizing init with
  | nil => simp
  | cons kv t ih => simp [ih, List.append_assoc]

/-- C8: for every store contents and search input, `searchData` returns
exactly the stored rows (batch keys enumerated in store order, flattened)
whose six fields joined with single spaces and lower-cased contain the
lower-cased input as a substring, and it returns them in enumeration order
(the result is a sublist of the full enumeration); the embedding is a pure
function of the store, which it does not modify. -/
theorem C8_search_filter (store : Store) (input : String) :
    searchData store input
        = (readAllRows store).filter (rowMatches (String.toLower input)) ∧
    (searchData store input).Sublist (readAllRows store) := by
  have h : searchData store input
      = (readAllRows store).filter (rowMatches (String.toLower input)) := by
    rw [searchData, readAllRows, searchData_foldl, List.filter_flatMap]
    simp
  exact ⟨h, h ▸ List.filter_sublist _⟩

theorem deliverOne_frame (env : CrawlEnv) (s : CrawlState) (p : Nat) :
    (deliverOne env s p).currentPage = s.currentPage ∧
    (deliverOne env s p).batchIndex = s.batchIndex ∧
    (deliverOne env s p).store = s.store ∧
    (deliverOne env s p).tick = s.tick ∧
    (deliverOne env s p).launchLog = s.launchLog ∧
    (deliverOne env s p).commitLog = s.commitLog ∧
    (deliverOne env s p).fetchedData = s.fetchedData := by
  unfold deliverOne
  cases netDoc env p <;> simp

theorem deliverListed_frame (env : CrawlEnv) :
    ∀ (ps : List Nat) (sp : CrawlState × List Nat),
      ((deliverListed env sp ps).1).currentPage = sp.1.currentPage ∧
      ((deliverListed env sp ps).1).batchIndex = sp.1.batchIndex ∧
      ((deliverListed env sp ps).1).store = sp.1.store ∧
      ((deliverListed env sp ps).1).tick = sp.1.tick ∧
      ((deliverListed env sp ps).1).launchLog = sp.1.launchLog ∧
      ((deliverListed env sp ps).1).commitLog = sp.1.commitLog ∧
      ((deliverListed env sp ps).1).fetchedData = sp.1.fetchedData := by
  intro ps
  induction ps with
  | nil => intro sp; simp [deliverListed]
  | cons p t ih =>
    intro sp
    have hstep : deliverListed env sp (p :: t)
        = deliverListed env
            (if p ∈ sp.2 then (deliverOne env sp.1 p, sp.2.erase p) else sp) t := by
      simp only [deliverListed, List.foldl_cons]
    rw [hstep]
    by_cases hp : p ∈ sp.2
    · have hd := deliverOne_frame env sp.1 p
      have ht := ih (deliverOne env sp.1 p, sp.2.erase p)
      simp only [hp, if_true] at *
      exact ⟨ht.1.trans hd.1, ht.2.1.trans hd.2.1, ht.2.2.1.trans hd.2.2.1,
        ht.2.2.2.1.trans hd.2.2.2.1, ht.2.2.2.2.1.trans hd.2.2.2.2.1,
        ht.2.2.2.2.2.1.trans hd.2.2.2.2.2.1, ht.2.2.2.2.2.2.trans hd.2.2.2.2.2.2⟩
    · simp only [hp, if_false]
      exact ih sp

theorem deliverListed_store (env : CrawlEnv) (ps : List Nat) (sp : CrawlState × List Nat) :
    ((deliverListed env sp ps).1).store = sp.1.store :=
  (deliverListed_frame env ps sp).2.2.1

theorem deliverListed_batchIndex (env : CrawlEnv) (ps : List Nat)
    (sp : CrawlState × List Nat) :
    ((deliverListed env sp ps).1).batchIndex = sp.1.batchIndex :=
  (deliverListed_frame env ps sp).2.1

theorem deliverListed_commitLog (env : CrawlEnv) (ps : List Nat)
    (sp : CrawlState × List Nat) :
    ((deliverListed env sp ps).1).commitLog = sp.1.commitLog :=
  (deliverListed_frame env ps sp).2.2.2.2.2.1

theorem deliverListed_launchLog (env : CrawlEnv) (ps : List Nat)
    (sp : CrawlState × List Nat) :
    ((deliverListed env sp ps).1).launchLog = sp.1.launchLog :=
  (deliverListed_frame env ps sp).2.2.2.2.1

theorem deliverListed_currentPage (env : CrawlEnv) (ps : List Nat)
    (sp : CrawlState × List Nat) :
    ((deliverListed env sp ps).1).currentPage = sp.1.currentPage :=
  (deliverListed_frame env ps sp).1

theorem deliverListed_fetchedData (env : CrawlEnv) (ps : List Nat)
    (sp : CrawlState × List Nat) :
    ((deliverListed env sp ps).1).fetchedData = sp.1.fetchedData :=
  (deliverListed_frame env ps sp).2.2.2.2.2.2

theorem launchStep_components (env : CrawlEnv) (σ : Schedule)
    (acc : CrawlState × List Nat × List Nat) :
    (launchStep env σ acc).1.currentPage = acc.1.currentPage + 1 ∧
    (launchStep env σ acc).1.launchLog = acc.1.launchLog ++ [acc.1.currentPage] ∧
    (launchStep env σ acc).2.1 = acc.2.1 ++ [acc.1.currentPage] ∧
    (launchStep env σ acc).1.batchIndex = acc.1.batchIndex ∧
    (launchStep env σ acc).1.store = acc.1.store ∧
    (launchStep env σ acc).1.commitLog = acc.1.commitLog ∧
    (launchStep env σ acc).1.fetchedData = acc.1.fetchedData := by
  refine ⟨?_, ?_, rfl, ?_, ?_, ?_, ?_⟩ <;>
    simp [launchStep, deliverListed_currentPage, deliverListed_launchLog,
      deliverListed_batchIndex, deliverListed_store, deliverListed_commitLog,
      deliverListed_fetchedData]

theorem launchStep_currentPage (env : CrawlEnv) (σ : Schedule)
    (acc : CrawlState × List Nat × List Nat) :
    (launchStep env σ acc).1.currentPage = acc.1.currentPage + 1 :=
  (launchStep_components env σ acc).1

theorem launchStep_launchLog (env : CrawlEnv) (σ : Schedule)
    (acc : CrawlState × List Nat × List Nat) :
    (launchStep env σ acc).1.launchLog = acc.1.launchLog ++ [acc.1.currentPage] :=
  (launchStep_components env σ acc).2.1

theorem launchStep_wave (env : CrawlEnv) (σ : Schedule)
    (acc : CrawlState × List Nat × List Nat) :
    (launchStep env σ acc).2.1 = acc.2.1 ++ [acc.1.currentPage] :=
  (launchStep_components env σ acc).2.2.1

theorem launchStep_batchIndex (env : CrawlEnv) (σ : Schedule)
    (acc : CrawlState × List Nat × List Nat) :
    (launchStep env σ acc).1.batchIndex = acc.1.batchIndex :=
  (launchStep_components env σ acc).2.2.2.1

theorem launchStep_store (env : CrawlEnv) (σ : Schedule)
    (acc : CrawlState × List Nat × List Nat) :
    (launchStep env σ acc).1.store = acc.1.store :=
  (launchStep_components env σ acc).2.2.2.2.1

theorem launchStep_commitLog (env : CrawlEnv) (σ : Schedule)
    (acc : CrawlState × List Nat × List Nat) :
    (launchStep env σ acc).1.commitLog = acc.1.commitLog :=
  (launchStep_components env σ acc).2.2.2.2.2.1

theorem launchStep_fetchedData (env : CrawlEnv) (σ : Schedule)
    (acc : CrawlState × List Nat × List Nat) :
    (launchStep env σ acc).1.fetchedData = acc.1.fetchedData :=
  (launchStep_components env σ acc).2.2.2.2.2.2

theorem launchLoop_batchIndex (env : CrawlEnv) (σ : Schedule) :
    ∀ (i : Nat) (acc : CrawlState × List Nat × List Nat),
      ((launchLoop env σ i acc).1).batchIndex = acc.1.batchIndex := by
  intro i
  induction i with
  | zero => intro acc; simp [launchLoop]
  | succ i ih =>
    intro acc
    by_cases hlast : acc.1.isLastPage
    · simp [launchLoop, hlast]
    · rw [launchLoop]
      simp [hlast, ih, launchStep_batchIndex]

theorem launchLoop_store (env : CrawlEnv) (σ : Schedule) :
    ∀ (i : Nat) (acc : CrawlState × List Nat × List Nat),
      ((launchLoop env σ i acc).1).store = acc.1.store := by
  intro i
  induction i with
  | zero => intro acc; simp [launchLoop]
  | succ i ih =>
    intro acc
    by_cases hlast : acc.1.isLastPage
    · simp [launchLoop, hlast]
    · rw [launchLoop]
      simp [hlast, ih, launchStep_store]

theorem launchLoop_commitLog (env : CrawlEnv) (σ : Schedule) :
    ∀ (i : Nat) (acc : CrawlState × List Nat × List Nat),
      ((launchLoop env σ i acc).1).commitLog = acc.1.commitLog := by
  intro i
  induction i with
  | zero => intro acc; simp [launchLoop]
  | succ i ih =>
    intro acc
    by_cases hlast : acc.1.isLastPage
    · simp [launchLoop, hlast]
    · rw [launchLoop]
      simp [hlast, ih, launchStep_commitLog]

theorem launchLoop_fetchedData (env : CrawlEnv) (σ : Schedule) :
    ∀ (i : Nat) (acc : CrawlState × List Nat × List Nat),
      ((launchLoop env σ i acc).1).fetchedData = acc.1.fetchedData := by
  intro i
  induction i with
  | zero => intro acc; simp [launchLoop]
  | succ i ih =>
    intro acc
    by_cases hlast : acc.1.isLastPage
    · simp [launchLoop, hlast]
    · rw [launchLoop]
      simp [hlast, ih, launchStep_fetchedData]

theorem waveStep_fetchedData (env : CrawlEnv) (σ : Schedule) (L : Nat) (s : CrawlState) :
    (waveStep env σ L s).fetchedData = s.fetchedData := by
  simp [waveStep, deliverListed_fetchedData, launchLoop_fetchedData]

theorem waveStep_batchIndex (env : CrawlEnv) (σ : Schedule) (L : Nat) (s : CrawlState) :
    (waveStep env σ L s).batchIndex = s.batchIndex + 1 := by
  simp [waveStep, deliverListed_batchIndex, launchLoop_batchIndex]

theorem crawlLoop_fetchedData (env : CrawlEnv) (σ : Schedule) (L : Nat) :
    ∀ (fuel : Nat) (s : CrawlState),
      ((crawlLoop env σ L fuel s).1).fetchedData = s.fetchedData := by
  intro fuel
  induction fuel with
  | zero => intro s; simp [crawlLoop]
  | succ fuel ih =>
    intro s
    by_cases hlast : s.isLastPage
    · simp [crawlLoop, hlast]
    · rw [crawlLoop]
      simp only [hlast, if_false, Bool.false_eq_true]
      rw [ih]
      exact waveStep_fetchedData env σ L s

/-- C9: the exporter serializes exactly the row collection it is wired to
(`fetchedData`), with no header row, into a single sheet with the fixed name
`Doctors Data` written to the fixed filename `doctors_data.xlsx`; no execution
of the crawl pipeline modifies that collection, so an export performed after a
crawl — the page initializes `fetchedData` to `[]` and nothing else assigns
it — serializes the prior, unpopulated contents. -/
theorem C9_export_frame (env : CrawlEnv) (σ : Schedule) (L fuel : Nat)
    (store0 : Store) (fd : List Row) :
    ((fetchDataRun env σ L fuel store0 fd).1).fetchedData = fd ∧
    exportToXLSX fd =
      { filename := "doctors_data.xlsx", sheets := [("Doctors Data", fd)] } ∧
    exportToXLSX ((fetchDataRun env σ L fuel store0 []).1).fetchedData =
      { filename := "doctors_data.xlsx", sheets := [("Doctors Data", [])] } := by
  refine ⟨?_, rfl, ?_⟩
  · exact crawlLoop_fetchedData env σ L fuel (initState store0 fd)
  · rw [show ((fetchDataRun env σ L fuel store0 []).1).fetchedData = [] from
      crawlLoop_fetchedData env σ L fuel (initState store0 [])]
    rfl

/-- Numeric value of a decimal digit character. -/
def decCharVal (c : Char) : Nat := c.toNat - 48

/-- Value of a most-significant-first decimal digit string. -/
def decVal (l : List Char) : Nat :=
  l.foldl (fun acc c => acc * 10 + decCharVal c) 0

theorem decVal_foldl_init (l : List Char) :
    ∀ a, l.foldl (fun acc c => acc * 10 + decCharVal c) a
      = a * 10 ^ l.length + decVal l := by
  induction l with
  | nil => intro a; simp [decVal]
  | cons c t ih =>
    intro a
    have h1 := ih (a * 10 + decCharVal c)
    have h2 := ih (decCharVal c)
    simp only [List.foldl_cons] at *
    rw [h1]
    have : decVal (c :: t) = decCharVal c * 10 ^ t.length + decVal t := by
      simp only [decVal, List.foldl_cons]
      simpa using h2
    rw [this]
    ring_nf
    simp [List.length_cons, pow_succ]
    ring

theorem decCharVal_digitChar : ∀ d, d < 10 → decCharVal (Nat.digitChar d) = d := by
  decide

theorem decVal_toDigitsCore :
    ∀ (f n : Nat) (l : List Char), n < 10 ^ f →
      decVal (Nat.toDigitsCore 10 f n l) = n * 10 ^ l.length + decVal l := by
  intro f
  induction f with
  | zero =>
    intro n l hn
    simp only [pow_zero, Nat.lt_one_iff] at hn
    subst hn
    simp [Nat.toDigitsCore]
  | succ f ih =>
    intro n l hn
    by_cases hdiv : n / 10 = 0
    · have hn10 : n < 10 := by omega
      simp only [Nat.toDigitsCore, hdiv, if_true]
      have : decVal (Nat.digitChar (n % 10) :: l)
          = decCharVal (Nat.digitChar (n % 10)) * 10 ^ l.length + decVal l := by
        simp only [decVal, List.foldl_cons]
        simpa using decVal_foldl_init l (decCharVal (Nat.digitChar (n % 10)))
      rw [this, decCharVal_digitChar _ (Nat.mod_lt n (by omega))]
      have : n % 10 = n := Nat.mod_eq_of_lt hn10
      rw [this]
    · simp only [Nat.toDigitsCore, hdiv, if_false]
      have hlt : n / 10 < 10 ^ f := by
        rw [pow_succ] at hn
        omega
      rw [ih (n / 10) (Nat.digitChar (n % 10) :: l) hlt]
      have : decVal (Nat.digitChar (n % 10) :: l)
          = decCharVal (Nat.digitChar (n % 10)) * 10 ^ l.length + decVal l := by
        simp only [decVal, List.foldl_cons]
        simpa using decVal_foldl_init l (decCharVal (Nat.digitChar (n % 10)))
      rw [this, decCharVal_digitChar _ (Nat.mod_lt n (by omega))]
      have hnd : 10 * (n / 10) + n % 10 = n := Nat.div_add_mod n 10
      simp only [List.length_cons, pow_succ]
      conv_rhs => rw [← hnd]
      ring

theorem decVal_repr (n : Nat) : decVal (Nat.repr n).data = n := by
  have hlt : n < 10 ^ (n + 1) :=
    lt_of_lt_of_le (Nat.lt_pow_self (by omega) n)
      (Nat.pow_le_pow_right (by omega) (Nat.le_succ n))
  have h := decVal_toDigitsCore (n + 1) n [] hlt
  simpa [Nat.repr, Nat.toDigits, decVal] using h

theorem nat_repr_injective : Function.Injective Nat.repr := by
  intro m n h
  have : decVal (Nat.repr m).data = decVal (Nat.repr n).data := by rw [h]
  rwa [decVal_repr, decVal_repr] at this

theorem batchKey_injective : Function.Injective batchKey := by
  intro i j h
  apply nat_repr_injective
  have hd : (batchKey i).data = (batchKey j).data := by rw [h]
  simp only [batchKey, String.data_append] at hd
  have := List.append_cancel_left hd
  exact String.ext this

theorem find?_map_update_self (k : String) (v : List Row) :
    ∀ (store : Store), store.any (fun x => x.1 = k) = true →
      (store.map (fun kv => if kv.1 = k then (k, v) else kv)).find?
          (fun kv => kv.1 = k) = some (k, v) := by
  intro store
  induction store with
  | nil => intro h; simp at h
  | cons kv t ih =>
    intro h
    by_cases hk : kv.1 = k
    · simp [hk]
    · have ht : t.any (fun x => x.1 = k) = true := by
        simpa [List.any_cons, hk] using h
      simp only [List.map_cons, hk, if_false]
      rw [List.find?_cons_of_neg _ (by simp [hk])]
      exact ih ht

theorem find?_map_update_other (k k' : String) (v : List Row) (hne : k' ≠ k) :
    ∀ (store : Store),
      (store.map (fun kv => if kv.1 = k then (k, v) else kv)).find?
          (fun kv => kv.1 = k')
        = store.find? (fun kv => kv.1 = k') := by
  intro store
  induction store with
  | nil => simp
  | cons kv t ih =>
    by_cases hk : kv.1 = k
    · simp only [List.map_cons, hk, if_true]
      rw [List.find?_cons_of_neg _ (by simp [Ne.symm hne]),
        List.find?_cons_of_neg _ (by simp [hk, Ne.symm hne])]
      exact ih
    · simp only [List.map_cons, hk, if_false]
      by_cases hk' : kv.1 = k'
      · rw [List.find?_cons_of_pos _ (by simp [hk']),
          List.find?_cons_of_pos _ (by simp [hk'])]
      · rw [List.find?_cons_of_neg _ (by simp [hk']),
          List.find?_cons_of_neg _ (by simp [hk'])]
        exact ih

theorem getItem_setItem_self (store : Store) (k : String) (v : List Row) :
    getItem (setItem store k v) k = some v := by
  unfold setItem getItem
  by_cases h : store.any (fun x => x.1 = k)
  · rw [if_pos h, find?_map_update_self k v store h]
    rfl
  · rw [if_neg h, List.find?_append]
    have h' : ∀ x ∈ store, ¬(x.1 = k) := by
      intro x hx hc
      exact h (List.any_eq_true.mpr ⟨x, hx, by simpa using hc⟩)
    have hnone : store.find? (fun kv => kv.1 = k) = none := by
      rw [List.find?_eq_none]
      intro x hx
      simpa using h' x hx
    rw [hnone]
    simp

theorem getItem_setItem_other (store : Store) (k k' : String) (v : List Row)
    (hne : k' ≠ k) : getItem (setItem store k v) k' = getItem store k' := by
  unfold setItem getItem
  by_cases h : store.any (fun x => x.1 = k)
  · rw [if_pos h, find?_map_update_other k k' v hne store]
  · rw [if_neg h, List.find?_append]
    have hsingle : [(k, v)].find? (fun kv => kv.1 = k') = none := by
      simp [Ne.symm hne]
    rw [hsingle]
    simp

theorem consecFrom_zero (c : Nat) : consecFrom c 0 = [] := rfl

theorem consecFrom_succ_left (c k : Nat) :
    consecFrom c (k + 1) = c :: consecFrom (c + 1) k := by
  rw [consecFrom, consecFrom, List.range_succ_eq_map, List.map_cons, List.map_map]
  congr 1
  apply List.map_congr_left
  intro a _
  show c + (a + 1) = c + 1 + a
  omega

theorem consecFrom_snoc (c k : Nat) :
    consecFrom c (k + 1) = consecFrom c k ++ [c + k] := by
  simp [consecFrom, List.range_succ]

theorem consecFrom_mem {c k p : Nat} (h : p ∈ consecFrom c k) : c ≤ p ∧ p < c + k := by
  simp only [consecFrom, List.mem_map, List.mem_range] at h
  obtain ⟨j, hj, hp⟩ := h
  omega

theorem consecFrom_nodup (c k : Nat) : (consecFrom c k).Nodup := by
  refine List.Nodup.map ?_ (List.nodup_range k)
  intro a b hab
  have h : c + a = c + b := hab
  omega

theorem launchLoop_wave (env : CrawlEnv) (σ : Schedule) :
    ∀ (i : Nat) (acc : CrawlState × List Nat × List Nat), ∃ k, k ≤ i ∧
      (launchLoop env σ i acc).2.1 = acc.2.1 ++ consecFrom acc.1.currentPage k ∧
      (launchLoop env σ i acc).1.currentPage = acc.1.currentPage + k ∧
      (launchLoop env σ i acc).1.launchLog
        = acc.1.launchLog ++ consecFrom acc.1.currentPage k := by
  intro i
  induction i with
  | zero =>
    intro acc
    exact ⟨0, Nat.le_refl 0, by simp [launchLoop, consecFrom_zero]⟩
  | succ i ih =>
    intro acc
    by_cases hlast : acc.1.isLastPage
    · exact ⟨0, Nat.zero_le _, by simp [launchLoop, hlast, consecFrom_zero]⟩
    · have hstep : launchLoop env σ (i + 1) acc = launchLoop env σ i (launchStep env σ acc) := by
        rw [launchLoop]
        simp [hlast]
      obtain ⟨k, hk, hwave, hpage, hlog⟩ := ih (launchStep env σ acc)
      refine ⟨k + 1, by omega, ?_, ?_, ?_⟩
      · rw [hstep, hwave, launchStep_wave, launchStep_currentPage, consecFrom_succ_left]
        simp
      · rw [hstep, hpage, launchStep_currentPage]
        omega
      · rw [hstep, hlog, launchStep_launchLog, launchStep_currentPage, consecFrom_succ_left]
        simp

/-- Pages launched by the wave that `waveStep` runs from state `s`. -/
def wavePages (env : CrawlEnv) (σ : Schedule) (L : Nat) (s : CrawlState) : List Nat :=
  (launchLoop env σ L (s, [], [])).2.1

theorem waveStep_commitLog (env : CrawlEnv) (σ : Schedule) (L : Nat) (s : CrawlState) :
    (waveStep env σ L s).commitLog = s.commitLog ++
      [{ idx := s.batchIndex, pages := wavePages env σ L s,
         rows := (wavePages env σ L s).flatMap (pageRows env) }] := by
  simp [waveStep, wavePages, deliverListed_commitLog, launchLoop_commitLog,
    deliverListed_batchIndex, launchLoop_batchIndex]

theorem waveStep_store (env : CrawlEnv) (σ : Schedule) (L : Nat) (s : CrawlState) :
    (waveStep env σ L s).store = setItem s.store (batchKey s.batchIndex)
      ((wavePages env σ L s).flatMap (pageRows env)) := by
  simp [waveStep, wavePages, deliverListed_store, launchLoop_store,
    deliverListed_batchIndex, launchLoop_batchIndex]

theorem waveStep_launchLog (env : CrawlEnv) (σ : Schedule) (L : Nat) (s : CrawlState) :
    (waveStep env σ L s).launchLog = s.launchLog ++ wavePages env σ L s := by
  obtain ⟨k, _, hwave, _, hlog⟩ := launchLoop_wave env σ L (s, [], [])
  have : (waveStep env σ L s).launchLog = (launchLoop env σ L (s, [], [])).1.launchLog := by
    simp [waveStep, deliverListed_launchLog]
  rw [this, hlog, wavePages, hwave]
  simp

theorem wavePages_consec (env : CrawlEnv) (σ : Schedule) (L : Nat) (s : CrawlState) :
    ∃ k, k ≤ L ∧ wavePages env σ L s = consecFrom s.currentPage k := by
  obtain ⟨k, hk, hwave, _, _⟩ := launchLoop_wave env σ L (s, [], [])
  exact ⟨k, hk, by rw [wavePages, hwave]; simp⟩

/-- Invariant of a crawl run's storage bookkeeping: the batch counter equals
the number of commits, the committed indices are exactly `0, 1, 2, ...` in
order, and each committed batch is readable under its key. -/
def StoreInv (s : CrawlState) : Prop :=
  s.batchIndex = s.commitLog.length ∧
  s.commitLog.map (fun e => e.idx) = List.range s.commitLog.length ∧
  ∀ e ∈ s.commitLog, getItem s.store (batchKey e.idx) = some e.rows

theorem waveStep_storeInv (env : CrawlEnv) (σ : Schedule) (L : Nat) (s : CrawlState)
    (h : StoreInv s) : StoreInv (waveStep env σ L s) := by
  obtain ⟨hA, hB, hC⟩ := h
  refine ⟨?_, ?_, ?_⟩
  · rw [waveStep_batchIndex, waveStep_commitLog]
    simp [hA]
  · rw [waveStep_commitLog]
    simp only [List.map_append, List.length_append, List.map_cons, List.map_nil,
      List.length_cons, List.length_nil]
    rw [hB, hA, List.range_succ]
  · intro e he
    rw [waveStep_commitLog] at he
    rw [waveStep_store]
    rcases List.mem_append.mp he with hold | hnew
    · have hidx : e.idx < s.commitLog.length := by
        have hm : e.idx ∈ s.commitLog.map (fun x => x.idx) :=
          List.mem_map_of_mem _ hold
        rw [hB] at hm
        exact List.mem_range.mp hm
      have hne : batchKey e.idx ≠ batchKey s.batchIndex := by
        intro hkey
        have := batchKey_injective hkey
        omega
      rw [getItem_setItem_other _ _ _ _ hne]
      exact hC e hold
    · have he2 : e = { idx := s.batchIndex, pages := wavePages env σ L s, rows := (wavePages env σ L s).flatMap (pageRows env) } := by
        simpa using hnew
      subst he2
      exact getItem_setItem_self _ _ _

theorem crawlLoop_storeInv (env : CrawlEnv) (σ : Schedule) (L : Nat) :
    ∀ (fuel : Nat) (s : CrawlState), StoreInv s →
      StoreInv ((crawlLoop env σ L fuel s).1) := by
  intro fuel
  induction fuel with
  | zero => intro s h; simpa [crawlLoop] using h
  | succ fuel ih =>
    intro s h
    by_cases hlast : s.isLastPage
    · simpa [crawlLoop, hlast] using h
    · rw [crawlLoop]
      simp only [hlast, if_false, Bool.false_eq_true]
      exact ih _ (waveStep_storeInv env σ L s h)

theorem initState_storeInv (store0 : Store) (fd : List Row) :
    StoreInv (initState store0 fd) :=
  ⟨rfl, rfl, fun e he => absurd he (List.not_mem_nil e)⟩

/-- C6: within one crawl run, the committed batch indices are exactly
`0, 1, 2, ...` with no gaps; a second run (over whatever storage the first run
left behind) reuses the same index sequence starting at 0, so each of its
commits overwrites the prior run's batch with the same key, and reading any
batch key committed by the second run yields the second run's data — in
particular every index both runs committed holds only the second run's
batch. -/
theorem C6_batch_indices (env1 env2 : CrawlEnv) (σ1 σ2 : Schedule)
    (L1 L2 fuel1 fuel2 : Nat) (store0 : Store) (fd1 fd2 : List Row) :
    ((fetchDataRun env1 σ1 L1 fuel1 store0 fd1).1).commitLog.map (fun e => e.idx)
        = List.range ((fetchDataRun env1 σ1 L1 fuel1 store0 fd1).1).commitLog.length ∧
    ((fetchDataRun env2 σ2 L2 fuel2
          ((fetchDataRun env1 σ1 L1 fuel1 store0 fd1).1).store fd2).1).commitLog.map
        (fun e => e.idx)
        = List.range ((fetchDataRun env2 σ2 L2 fuel2
            ((fetchDataRun env1 σ1 L1 fuel1 store0 fd1).1).store fd2).1).commitLog.length ∧
    ∀ e ∈ ((fetchDataRun env2 σ2 L2 fuel2
          ((fetchDataRun env1 σ1 L1 fuel1 store0 fd1).1).store fd2).1).commitLog,
      getItem ((fetchDataRun env2 σ2 L2 fuel2
          ((fetchDataRun env1 σ1 L1 fuel1 store0 fd1).1).store fd2).1).store
          (batchKey e.idx)
        = some e.rows := by
  have h1 := crawlLoop_storeInv env1 σ1 L1 fuel1 (initState store0 fd1)
    (initState_storeInv store0 fd1)
  have h2 := crawlLoop_storeInv env2 σ2 L2 fuel2
    (initState ((fetchDataRun env1 σ1 L1 fuel1 store0 fd1).1).store fd2)
    (initState_storeInv _ fd2)
  exact ⟨h1.2.1, h2.2.1, h2.2.2⟩

/-- The crawl environment of the concrete runs below: every fetch succeeds at
its first attempt, pages contain no cards, and the pagination collapses to two
items from page 2 on — the true last page is page 2. -/
def envTwoPages : CrawlEnv := uniformEnv (fun _ => []) 2

theorem envTwoPages_trueLast : hasTrueLastPage envTwoPages 2 := by
  intro p hp
  refine ⟨{ cards := [], paginationItems := if 2 ≤ p then 2 else 3 }, rfl, ?_⟩
  by_cases h2 : 2 ≤ p
  · simp [extractIsLast, h2]
  · have h3 : ¬(2 ≤ p) := h2
    simp [extractIsLast, h2, h3]

/-- Witness for C6 at two concrete back-to-back runs. -/
theorem C6_batch_indices_witness :
    getItem ((fetchDataRun envTwoPages joinOrderSchedule 2 3
        ((fetchDataRun envTwoPages joinOrderSchedule 2 3 [] []).1).store []).1).store
        (batchKey 0) = some [] :=
  (C6_batch_indices envTwoPages envTwoPages joinOrderSchedule joinOrderSchedule
      2 2 3 3 [] [] []).2.2
    { idx := 0, pages := [1, 2], rows := [] } (by decide)

/-- Invariant of a run's commit bookkeeping: every committed batch is the
page-order concatenation of its wave's per-page rows, every wave is a
consecutive ascending page block, and the committed waves partition the launch
sequence in order. -/
def CommitInv (env : CrawlEnv) (s : CrawlState) : Prop :=
  (∀ e ∈ s.commitLog,
    e.rows = e.pages.flatMap (pageRows env) ∧ ∃ st k, e.pages = consecFrom st k) ∧
  s.commitLog.flatMap (fun e => e.pages) = s.launchLog

theorem waveStep_commitInv (env : CrawlEnv) (σ : Schedule) (L : Nat) (s : CrawlState)
    (h : CommitInv env s) : CommitInv env (waveStep env σ L s) := by
  obtain ⟨h1, h2⟩ := h
  constructor
  · intro e he
    rw [waveStep_commitLog] at he
    rcases List.mem_append.mp he with hold | hnew
    · exact h1 e hold
    · have he2 : e = { idx := s.batchIndex, pages := wavePages env σ L s, rows := (wavePages env σ L s).flatMap (pageRows env) } := by
        simpa using hnew
      subst he2
      obtain ⟨k, _, hk⟩ := wavePages_consec env σ L s
      exact ⟨rfl, s.currentPage, k, hk⟩
  · rw [waveStep_commitLog, waveStep_launchLog, List.flatMap_append, h2]
    simp

theorem crawlLoop_commitInv (env : CrawlEnv) (σ : Schedule) (L : Nat) :
    ∀ (fuel : Nat) (s : CrawlState), CommitInv env s →
      CommitInv env ((crawlLoop env σ L fuel s).1) := by
  intro fuel
  induction fuel with
  | zero => intro s h; simpa [crawlLoop] using h
  | succ fuel ih =>
    intro s h
    by_cases hlast : s.isLastPage
    · simpa [crawlLoop, hlast] using h
    · rw [crawlLoop]
      simp only [hlast, if_false, Bool.false_eq_true]
      exact ih _ (waveStep_commitInv env σ L s h)

/-- C5: in every run, each committed batch equals the concatenation of its
wave's per-page record sequences in increasing page-number (launch) order —
the wave's pages form a consecutive ascending block, and the batch rows are
their page-order flattening, whatever the completion schedule was; waves are
processed strictly sequentially, so the committed waves partition the launch
sequence in commit order. -/
theorem C5_wave_concat (env : CrawlEnv) (σ : Schedule) (L fuel : Nat)
    (store0 : Store) (fd : List Row) :
    (∀ e ∈ ((fetchDataRun env σ L fuel store0 fd).1).commitLog,
      e.rows = e.pages.flatMap (pageRows env) ∧ ∃ st k, e.pages = consecFrom st k) ∧
    ((fetchDataRun env σ L fuel store0 fd).1).commitLog.flatMap (fun e => e.pages)
      = ((fetchDataRun env σ L fuel store0 fd).1).launchLog :=
  crawlLoop_commitInv env σ L fuel (initState store0 fd)
    ⟨fun e he => absurd he (List.not_mem_nil e), rfl⟩

/-- Witness for C5 at a concrete run. -/
theorem C5_wave_concat_witness :
    (([] : List Row) = [1, 2].flatMap (pageRows envTwoPages) ∧
      ∃ st k, [1, 2] = consecFrom st k) ∧
    ((fetchDataRun envTwoPages joinOrderSchedule 2 3 [] []).1).commitLog.flatMap
        (fun e => e.pages)
      = ((fetchDataRun envTwoPages joinOrderSchedule 2 3 [] []).1).launchLog :=
  ⟨(C5_wave_concat envTwoPages joinOrderSchedule 2 3 [] []).1
      { idx := 0, pages := [1, 2], rows := [] } (by decide),
   (C5_wave_concat envTwoPages joinOrderSchedule 2 3 [] []).2⟩

/-- The completion events form one chain: each event's `before` value is the
flag value left by the previous event (`cur` before the first). -/
def chainedFrom : Bool → List FlagEvent → Prop
  | _, [] => True
  | cur, e :: rest => e.before = cur ∧ chainedFrom e.after rest

/-- The flag value after a sequence of completion events, `cur` if none. -/
def lastAfter (cur : Bool) (evs : List FlagEvent) : Bool :=
  evs.foldl (fun _ e => e.after) cur

theorem lastAfter_append_one (cur : Bool) (evs : List FlagEvent) (e : FlagEvent) :
    lastAfter cur (evs ++ [e]) = e.after := by
  simp [lastAfter, List.foldl_append]

theorem chainedFrom_append_one :
    ∀ (evs : List FlagEvent) (cur : Bool) (e : FlagEvent),
      chainedFrom cur evs → e.before = lastAfter cur evs →
      chainedFrom cur (evs ++ [e]) := by
  intro evs
  induction evs with
  | nil =>
    intro cur e _ hb
    exact ⟨hb, trivial⟩
  | cons f t ih =>
    intro cur e hch hb
    refine ⟨hch.1, ih f.after e hch.2 ?_⟩
    rw [hb]
    rfl

/-- Invariant tying the flag to the completion-event history: the history is
chained starting from `false`, the flag equals the last event's `after` value,
every completion sets the flag to the completed page's end-of-data value on
success and leaves it unchanged on failure, and a raised flag is justified by
some successful fetch of an end-of-data document. -/
def FlagInvE (env : CrawlEnv) (flag : Bool) (evs : List FlagEvent) : Prop :=
  chainedFrom false evs ∧
  flag = lastAfter false evs ∧
  (∀ e ∈ evs, e.after = ((netDoc env e.page).map extractIsLast).getD e.before) ∧
  (flag = true → ∃ p doc, netDoc env p = some doc ∧ extractIsLast doc = true)

/-- The flag invariant read off a crawl state. -/
abbrev FlagInv (env : CrawlEnv) (s : CrawlState) : Prop :=
  FlagInvE env s.isLastPage s.flagEvents

theorem deliverOne_flagInv (env : CrawlEnv) (s : CrawlState) (p : Nat)
    (h : FlagInv env s) : FlagInv env (deliverOne env s p) := by
  obtain ⟨h1, h2, h3, h4⟩ := h
  unfold deliverOne
  cases hnd : netDoc env p with
  | some doc =>
    refine ⟨?_, ?_, ?_, ?_⟩
    · exact chainedFrom_append_one _ _ _ h1 (by simpa using h2)
    · simp [lastAfter_append_one]
    · intro e he
      rcases List.mem_append.mp he with hold | hnew
      · exact h3 e hold
      · have he2 : e = { page := p, before := s.isLastPage, after := extractIsLast doc } := by
          simpa using hnew
      
        subst he2
        simp [hnd]
    · intro hx
      simp only at hx
      exact ⟨p, doc, hnd, hx⟩
  | none =>
    refine ⟨?_, ?_, ?_, ?_⟩
    · exact chainedFrom_append_one _ _ _ h1 (by simpa using h2)
    · simp [lastAfter_append_one]
    · intro e he
      rcases List.mem_append.mp he with hold | hnew
      · exact h3 e hold
      · have he2 : e = { page := p, before := s.isLastPage, after := s.isLastPage } := by
          simpa using hnew
        subst he2
        simp [hnd]
    · intro hx
      simp only at hx
      exact h4 hx
  
theorem deliverListed_flagInv (env : CrawlEnv) :
    ∀ (ps : List Nat) (sp : CrawlState × List Nat), FlagInv env sp.1 →
      FlagInv env ((deliverListed env sp ps).1) := by
  intro ps
  induction ps with
  | nil => intro sp h; exact h
  | cons p t ih =>
    intro sp h
    have hstep : deliverListed env sp (p :: t)
        = deliverListed env
            (if p ∈ sp.2 then (deliverOne env sp.1 p, sp.2.erase p) else sp) t := by
      simp only [deliverListed, List.foldl_cons]
    rw [hstep]
    by_cases hp : p ∈ sp.2
    · simp only [hp, if_true]
      exact ih _ (deliverOne_flagInv env sp.1 p h)
    · simp only [hp, if_false]
      exact ih sp h

theorem launchStep_flagInv (env : CrawlEnv) (σ : Schedule)
    (acc : CrawlState × List Nat × List Nat) (h : FlagInv env acc.1) :
    FlagInv env (launchStep env σ acc).1 :=
  deliverListed_flagInv env _ _ h

theorem launchLoop_flagInv (env : CrawlEnv) (σ : Schedule) :
    ∀ (i : Nat) (acc : CrawlState × List Nat × List Nat), FlagInv env acc.1 →
      FlagInv env ((launchLoop env σ i acc).1) := by
  intro i
  induction i with
  | zero => intro acc h; exact h
  | succ i ih =>
    intro acc h
    by_cases hlast : acc.1.isLastPage
    · simpa [launchLoop, hlast] using h
    · rw [launchLoop]
      simp only [hlast, if_false, Bool.false_eq_true]
      exact ih _ (launchStep_flagInv env σ acc h)

theorem waveStep_flagInv (env : CrawlEnv) (σ : Schedule) (L : Nat) (s : CrawlState)
    (h : FlagInv env s) : FlagInv env (waveStep env σ L s) :=
  deliverListed_flagInv env _ _
    (deliverListed_flagInv env _ _ (launchLoop_flagInv env σ L (s, [], []) h))

theorem crawlLoop_flagInv (env : CrawlEnv) (σ : Schedule) (L : Nat) :
    ∀ (fuel : Nat) (s : CrawlState), FlagInv env s →
      FlagInv env ((crawlLoop env σ L fuel s).1) := by
  intro fuel
  induction fuel with
  | zero => intro s h; exact h
  | succ fuel ih =>
    intro s h
    by_cases hlast : s.isLastPage
    · simpa [crawlLoop, hlast] using h
    · rw [crawlLoop]
      simp only [hlast, if_false, Bool.false_eq_true]
      exact ih _ (waveStep_flagInv env σ L s h)

theorem initState_flagInv (env : CrawlEnv) (store0 : Store) (fd : List Row) :
    FlagInv env (initState store0 fd) :=
  ⟨trivial, rfl, fun e he => absurd he (List.not_mem_nil e), by intro hx; cases hx⟩

/-- A completion schedule under which, in the first wave, the fetch of page 2
is observed before the fetch of page 1: page 1 responds slower than the whole
wave, page 2 faster. -/
def lateFirstSchedule : Schedule := fun t => if t = 2 then [2] else []

/-- C2 counterexample: with true last page 2 and `parallelLimit = 2`, when the
fetch of page 2 completes before the fetch of page 1 within the first wave,
the flag history of the run reads `true` after the first completion (page 2
observed end-of-data) and `false` after the second (the later-completing page
1 assigned `paginationItems.length <= 2`, which is `false` for page 1) —
`isLastPage` is set to `true` and then reset to `false` by a later event of
the same run, so the flag is not write-once-settling. -/
theorem C2_counterexample :
    (((fetchDataRun envTwoPages lateFirstSchedule 2 3 [] []).1).flagEvents.map
      (fun e => e.after)) = [true, false, true, true] := by
  decide

/-- C2 amended: the flag is not write-once; instead, every successful
completion assigns it that page's end-of-data value (so a later completion of
a non-final page can reset it to `false`), failed completions leave it
unchanged, the completion events chain from the initial `false`, and the flag
always equals the last completion's value. -/
theorem C2_flag_assignment (env : CrawlEnv) (σ : Schedule) (L fuel : Nat)
    (store0 : Store) (fd : List Row) :
    chainedFrom false (((fetchDataRun env σ L fuel store0 fd).1).flagEvents) ∧
    ((fetchDataRun env σ L fuel store0 fd).1).isLastPage
      = lastAfter false (((fetchDataRun env σ L fuel store0 fd).1).flagEvents) ∧
    ∀ e ∈ ((fetchDataRun env σ L fuel store0 fd).1).flagEvents,
      e.after = ((netDoc env e.page).map extractIsLast).getD e.before := by
  have h := crawlLoop_flagInv env σ L fuel (initState store0 fd)
    (initState_flagInv env store0 fd)
  exact ⟨h.1, h.2.1, h.2.2.1⟩

/-- Witness for C2's amended statement at a concrete completion event. -/
theorem C2_flag_assignment_witness :
    (true : Bool) = ((netDoc envTwoPages 2).map extractIsLast).getD false :=
  (C2_flag_assignment envTwoPages lateFirstSchedule 2 3 [] []).2.2
    { page := 2, before := false, after := true } (by decide)

/-- C4: extraction reports end-of-data exactly when the document's pagination
block has at most two page items; a successful fetch assigns precisely this
verdict to the flag; and the heuristic is the sole end-of-data signal — a
raised flag is always justified by some successfully fetched document with at
most two pagination items. -/
theorem C4_pagination_heuristic :
    (∀ doc, extractIsLast doc = true ↔ doc.paginationItems ≤ 2) ∧
    (∀ (env : CrawlEnv) (s : CrawlState) (p : Nat) (doc : Doc),
      netDoc env p = some doc →
      (deliverOne env s p).isLastPage = decide (doc.paginationItems ≤ 2)) ∧
    (∀ (env : CrawlEnv) (σ : Schedule) (L fuel : Nat) (store0 : Store) (fd : List Row),
      ((fetchDataRun env σ L fuel store0 fd).1).isLastPage = true →
      ∃ p doc, netDoc env p = some doc ∧ doc.paginationItems ≤ 2) := by
  refine ⟨?_, ?_, ?_⟩
  · intro doc
    exact decide_eq_true_iff
  · intro env s p doc hnd
    unfold deliverOne
    rw [hnd]
    rfl
  · intro env σ L fuel store0 fd hflag
    have h := crawlLoop_flagInv env σ L fuel (initState store0 fd)
      (initState_flagInv env store0 fd)
    obtain ⟨p, doc, hnd, hx⟩ := h.2.2.2 hflag
    exact ⟨p, doc, hnd, of_decide_eq_true hx⟩

/-- Witness for C4 at a concrete document and run. -/
theorem C4_pagination_heuristic_witness :
    (deliverOne envTwoPages (initState [] []) 2).isLastPage
        = decide ((2 : Nat) ≤ 2) ∧
    ∃ p doc, netDoc envTwoPages p = some doc ∧ doc.paginationItems ≤ 2 :=
  ⟨(C4_pagination_heuristic).2.1 envTwoPages (initState [] []) 2
      { cards := [], paginationItems := 2 } (by decide),
   (C4_pagination_heuristic).2.2 envTwoPages joinOrderSchedule 2 3 [] []
      (by decide)⟩

theorem crawlLoop_snd_true (env : CrawlEnv) (σ : Schedule) (L : Nat) :
    ∀ (fuel : Nat) (s : CrawlState), (crawlLoop env σ L fuel s).2 = true →
      ((crawlLoop env σ L fuel s).1).isLastPage = true := by
  intro fuel
  induction fuel with
  | zero => intro s h; simp [crawlLoop] at h
  | succ fuel ih =>
    intro s
    by_cases hlast : s.isLastPage
    · intro _
      simp [crawlLoop, hlast]
    · rw [crawlLoop]
      simp only [hlast, if_false, Bool.false_eq_true]
      exact ih _

/-- C10: a page fetch that fails (every attempt throws) yields no document, so
it writes nothing to the end-of-data flag — a failed completion leaves the
flag exactly as it was — and therefore the crawl loop can observe a raised
flag and stop only when some successful fetch observed the end-of-data
condition. -/
theorem C10_failure_leaves_flag :
    (∀ attempts : AttemptOracle, (∀ i, i ≤ 4 → attempts i = none) →
      (fetchPageRun attempts).1 = none) ∧
    (∀ (env : CrawlEnv) (s : CrawlState) (p : Nat),
      netDoc env p = none → (deliverOne env s p).isLastPage = s.isLastPage) ∧
    (∀ (env : CrawlEnv) (σ : Schedule) (L fuel : Nat) (store0 : Store) (fd : List Row),
      (fetchDataRun env σ L fuel store0 fd).2 = true →
      ∃ p doc, netDoc env p = some doc ∧ extractIsLast doc = true) := by
  refine ⟨?_, ?_, ?_⟩
  · intro attempts hfail
    have h := fetchPageGo_allFail attempts 4 0 (fun i hi => by simpa using hfail i hi)
    rw [fetchPageRun, h]
  · intro env s p hnd
    unfold deliverOne
    rw [hnd]
  · intro env σ L fuel store0 fd hterm
    have hflag := crawlLoop_snd_true env σ L fuel (initState store0 fd) hterm
    have h := crawlLoop_flagInv env σ L fuel (initState store0 fd)
      (initState_flagInv env store0 fd)
    exact h.2.2.2 hflag

/-- Witness for C10 at concrete failing and succeeding fetches. -/
theorem C10_failure_leaves_flag_witness :
    (fetchPageRun (fun _ => none)).1 = none ∧
    (deliverOne (fun _ _ => none) (initState [] []) 1).isLastPage
        = (initState [] []).isLastPage ∧
    ∃ p doc, netDoc envTwoPages p = some doc ∧ extractIsLast doc = true :=
  ⟨C10_failure_leaves_flag.1 (fun _ => none) (fun i _ => rfl),
   C10_failure_leaves_flag.2.1 (fun _ _ => none) (initState [] []) 1 rfl,
   C10_failure_leaves_flag.2.2 envTwoPages joinOrderSchedule 2 3 [] [] (by decide)⟩

theorem launchStep_joinOrder_flag (env : CrawlEnv)
    (acc : CrawlState × List Nat × List Nat) :
    (launchStep env joinOrderSchedule acc).1.isLastPage = acc.1.isLastPage := rfl

theorem launchStep_joinOrder_pending (env : CrawlEnv)
    (acc : CrawlState × List Nat × List Nat) :
    (launchStep env joinOrderSchedule acc).2.2
      = acc.2.2 ++ [acc.1.currentPage] := rfl

theorem launchLoop_joinOrder (env : CrawlEnv) :
    ∀ (i : Nat) (acc : CrawlState × List Nat × List Nat), acc.1.isLastPage = false →
      ((launchLoop env joinOrderSchedule i acc).1).isLastPage = false ∧
      ((launchLoop env joinOrderSchedule i acc).1).currentPage
        = acc.1.currentPage + i ∧
      ((launchLoop env joinOrderSchedule i acc).1).launchLog
        = acc.1.launchLog ++ consecFrom acc.1.currentPage i ∧
      (launchLoop env joinOrderSchedule i acc).2.2
        = acc.2.2 ++ consecFrom acc.1.currentPage i := by
  intro i
  induction i with
  | zero => intro acc h; simp [launchLoop, consecFrom_zero, h]
  | succ i ih =>
    intro acc h
    have hstep : launchLoop env joinOrderSchedule (i + 1) acc
        = launchLoop env joinOrderSchedule i (launchStep env joinOrderSchedule acc) := by
      rw [launchLoop]
      simp [h]
    have hflag : (launchStep env joinOrderSchedule acc).1.isLastPage = false := by
      rw [launchStep_joinOrder_flag]
      exact h
    obtain ⟨f, cp, ll, pend⟩ := ih (launchStep env joinOrderSchedule acc) hflag
    refine ⟨?_, ?_, ?_, ?_⟩
    · rw [hstep]
      exact f
    · rw [hstep, cp, launchStep_currentPage]
      omega
    · rw [hstep, ll, launchStep_launchLog, launchStep_currentPage, consecFrom_succ_left]
      simp
    · rw [hstep, pend, launchStep_joinOrder_pending, launchStep_currentPage,
        consecFrom_succ_left]
      simp

theorem deliverOne_isLastPage (env : CrawlEnv) (s : CrawlState) (p : Nat) :
    (deliverOne env s p).isLastPage
      = ((netDoc env p).map extractIsLast).getD s.isLastPage := by
  unfold deliverOne
  cases netDoc env p <;> rfl

/-- Net effect on the flag of a sequence of completions delivered in order. -/
def flagFold (env : CrawlEnv) (b : Bool) (ps : List Nat) : Bool :=
  ps.foldl (fun f p => ((netDoc env p).map extractIsLast).getD f) b

theorem deliverListed_all_flag (env : CrawlEnv) :
    ∀ (ps : List Nat) (sp : CrawlState × List Nat), ps.Nodup →
      (∀ p ∈ ps, p ∈ sp.2) →
      ((deliverListed env sp ps).1).isLastPage = flagFold env sp.1.isLastPage ps := by
  intro ps
  induction ps with
  | nil => intro sp _ _; rfl
  | cons p t ih =>
    intro sp hnd hsub
    have hp : p ∈ sp.2 := hsub p (List.mem_cons_self p t)
    have hstep : deliverListed env sp (p :: t)
        = deliverListed env (deliverOne env sp.1 p, sp.2.erase p) t := by
      simp only [deliverListed, List.foldl_cons]
      rw [if_pos hp]
    rw [hstep]
    have hnd' := List.nodup_cons.mp hnd
    have hres := ih (deliverOne env sp.1 p, sp.2.erase p) hnd'.2 (fun q hq =>
      (List.mem_erase_of_ne (fun hqp => hnd'.1 (by rw [← hqp]; exact hq))).mpr
        (hsub q (List.mem_cons_of_mem p hq)))
    rw [hres, deliverOne_isLastPage]
    rfl

theorem flagFold_consec (env : CrawlEnv) (N : Nat) (henv : hasTrueLastPage env N)
    (c k : Nat) (b : Bool) (hc : 1 ≤ c) :
    flagFold env b (consecFrom c (k + 1)) = decide (N ≤ c + k) := by
  rw [consecFrom_snoc]
  obtain ⟨doc, hd, hx⟩ := henv (c + k) (by omega)
  simp [flagFold, List.foldl_append, hd, hx]

theorem waveStep_isLastPage_joinOrder (env : CrawlEnv) (L : Nat) (s : CrawlState) :
    (waveStep env joinOrderSchedule L s).isLastPage
      = ((deliverListed env
            ({ (launchLoop env joinOrderSchedule L (s, [], [])).1 with
                tick := (launchLoop env joinOrderSchedule L (s, [], [])).1.tick + 1 },
              (launchLoop env joinOrderSchedule L (s, [], [])).2.2)
            (launchLoop env joinOrderSchedule L (s, [], [])).2.2).1).isLastPage := rfl

theorem waveStep_currentPage (env : CrawlEnv) (σ : Schedule) (L : Nat) (s : CrawlState) :
    (waveStep env σ L s).currentPage
      = (launchLoop env σ L (s, [], [])).1.currentPage := by
  simp [waveStep, deliverListed_currentPage]

theorem waveStep_joinOrder (env : CrawlEnv) (N L : Nat) (s : CrawlState)
    (henv : hasTrueLastPage env N) (hflag : s.isLastPage = false)
    (hc : 1 ≤ s.currentPage) (hL : 1 ≤ L) :
    (waveStep env joinOrderSchedule L s).isLastPage
        = decide (N ≤ s.currentPage + (L - 1)) ∧
    (waveStep env joinOrderSchedule L s).currentPage = s.currentPage + L ∧
    (waveStep env joinOrderSchedule L s).launchLog
        = s.launchLog ++ consecFrom s.currentPage L := by
  obtain ⟨hf1, hcp1, hll1, hpend1⟩ := launchLoop_joinOrder env L (s, [], []) hflag
  simp only [List.nil_append] at hll1 hpend1
  refine ⟨?_, ?_, ?_⟩
  · rw [waveStep_isLastPage_joinOrder]
    rw [deliverListed_all_flag env _ _ (by rw [hpend1]; exact consecFrom_nodup _ _)
      (fun p hp => hp)]
    obtain ⟨L', rfl⟩ : ∃ L', L = L' + 1 := ⟨L - 1, by omega⟩
    have hfold : flagFold env false (consecFrom s.currentPage (L' + 1))
        = decide (N ≤ s.currentPage + L') := flagFold_consec env N henv _ L' false hc
    simp only [hpend1]
    have hflag2 : ({ (launchLoop env joinOrderSchedule (L' + 1) (s, [], [])).1 with
        tick := (launchLoop env joinOrderSchedule (L' + 1) (s, [], [])).1.tick + 1 } :
          CrawlState).isLastPage = false := hf1
    rw [hflag2, hfold]
    congr 1
  · rw [waveStep_currentPage, hcp1]
  · rw [waveStep_launchLog, wavePages]
    obtain ⟨k, _, hwv, hcp2, _⟩ := launchLoop_wave env joinOrderSchedule L (s, [], [])
    have hk : k = L := by
      rw [hcp1] at hcp2
      omega
    rw [hwv, hk]
    simp

theorem crawlLoop_bound (env : CrawlEnv) (N L : Nat) (henv : hasTrueLastPage env N)
    (hL : 1 ≤ L) :
    ∀ (fuel : Nat) (s : CrawlState), 1 ≤ s.currentPage →
      (s.isLastPage = false → s.currentPage ≤ N) →
      (∀ p ∈ s.launchLog, p + 1 ≤ N + L) →
      ∀ p ∈ ((crawlLoop env joinOrderSchedule L fuel s).1).launchLog,
        p + 1 ≤ N + L := by
  intro fuel
  induction fuel with
  | zero => intro s _ _ hlog; simpa [crawlLoop] using hlog
  | succ fuel ih =>
    intro s hc hcle hlog
    by_cases hlast : s.isLastPage
    · simpa [crawlLoop, hlast] using hlog
    · rw [crawlLoop]
      simp only [hlast, if_false, Bool.false_eq_true]
      have hfalse : s.isLastPage = false := by simpa using hlast
      obtain ⟨hflag', hcp', hll'⟩ := waveStep_joinOrder env N L s henv hfalse hc hL
      have hsN := hcle hfalse
      apply ih
      · rw [hcp']
        omega
      · intro hf0
        rw [hcp']
        rw [hflag'] at hf0
        have hlt : ¬(N ≤ s.currentPage + (L - 1)) := by simpa using hf0
        omega
      · intro p hp
        rw [hll'] at hp
        rcases List.mem_append.mp hp with h1 | h2
        · exact hlog p h1
        · have hb := consecFrom_mem h2
          omega

/-- C1 amended: the end-of-data flag is in fact also inspected within a wave's
launch loop (the loop condition re-reads it before every launch), and with
out-of-order completions a wave can reset the flag and push dispatch past the
bound; the dispatch bound holds for runs in which every wave's completions are
observed at the wave's join in launch order (the `joinOrderSchedule`): for
every such run whose true last page is page `N`, every dispatched page number
is at most `N + (parallelLimit - 1)`. -/
theorem C1_dispatch_bound (env : CrawlEnv) (N L fuel : Nat) (store0 : Store)
    (fd : List Row) (hN : 1 ≤ N) (hL : 1 ≤ L) (henv : hasTrueLastPage env N) :
    ∀ p ∈ ((fetchDataRun env joinOrderSchedule L fuel store0 fd).1).launchLog,
      p ≤ N + (L - 1) := by
  intro p hp
  have h := crawlLoop_bound env N L henv hL fuel (initState store0 fd)
    (by simp [initState])
    (fun _ => by simpa [initState] using hN)
    (fun q hq => absurd hq (List.not_mem_nil q)) p hp
  omega

/-- C1 counterexample: a run over pages whose true last page is 2, with
`parallelLimit = 2`, in which page 2's fetch completes before page 1's within
the first wave: the later-completing page 1 resets the flag to `false`, a
second wave launches pages 3 and 4, and page 4 exceeds the claimed bound
`N + (parallelLimit - 1) = 3`. -/
theorem C1_counterexample :
    hasTrueLastPage envTwoPages 2 ∧
    4 ∈ ((fetchDataRun envTwoPages lateFirstSchedule 2 3 [] []).1).launchLog ∧
    2 + (2 - 1) < 4 :=
  ⟨envTwoPages_trueLast, by decide, by decide⟩

/-- Witness for the amended C1 at a concrete run. -/
theorem C1_dispatch_bound_witness :
    (2 : Nat) ∈ ((fetchDataRun envTwoPages joinOrderSchedule 2 3 [] []).1).launchLog ∧
    (2 : Nat) ≤ 2 + (2 - 1) :=
  ⟨by decide,
   C1_dispatch_bound envTwoPages 2 2 3 [] [] (by decide) (by decide)
     envTwoPages_trueLast 2 (by decide)⟩
